import Mathlib

/-!
Verification of the nmtpytorch inference subsystem against its
natural-language specification.

The definitions below are a shallow embedding of the two source files

  * `src/nmtpytorch/translator.py` (`Translator`)
  * `src/nmtpytorch/datasets/multilabelmulti30k.py` (`MultiLabelMulti30kDataset`)

Python values are modelled as follows: strings are Lean `String` (or
`List Char` where per-character parsing is proved about), Python `set`
cardinality `len(set(xs))` is `(xs.dedup).length`, `assert` failures and
`sys.exit` are `Except`-style error results, and file-system writes are
explicit updates of a `String → Option String` map.
-/

namespace Nmtpytorch

/-- A loaded model instance, as `Translator.__init__` observes it:
its declared `eval_filters` configuration (an ordered list of filter
names, since `FilterChain` applies them in declared order), its target
vocabulary size `n_trg_vocab`, and its `supports_beam_search` flag. -/
structure Instance where
  eval_filters : List String
  n_trg_vocab : Nat
  supports_beam_search : Bool
  deriving DecidableEq, Repr

/-- The first assertion of `Translator.sanity_check`
(`eval_filters = set([i.opts.train['eval_filters'] for i in instances]);
assert len(eval_filters) < 2`): the distinct filter-configuration
values must number fewer than two. -/
def filters_check_ok (instances : List Instance) : Bool :=
  ((instances.map (·.eval_filters)).dedup).length < 2

/-- The second assertion of `Translator.sanity_check`
(`n_trg_vocab = set([i.n_trg_vocab for i in instances]);
assert len(n_trg_vocab) == 1`): there must be exactly one distinct
target-vocabulary size. -/
def vocab_check_ok (instances : List Instance) : Bool :=
  ((instances.map (·.n_trg_vocab)).dedup).length == 1

/-- `Translator.sanity_check`: the filters assertion runs first, then the
vocabulary assertion; a failing `assert` raises with the source's message. -/
def sanity_check (instances : List Instance) : Except String Unit :=
  if filters_check_ok instances then
    if vocab_check_ok instances then Except.ok ()
    else Except.error "target vocabularies differ."
  else Except.error "eval_filters differ between instances."

/-- A list whose `dedup` has length one is a nonempty constant list. -/
theorem dedup_length_one_iff {α : Type} [DecidableEq α] (l : List α) :
    l.dedup.length = 1 ↔ ∃ a, l ≠ [] ∧ ∀ x ∈ l, x = a := by
  constructor
  · intro h
    match hd : l.dedup, h with
    | [a], _ =>
      refine ⟨a, ?_, ?_⟩
      · intro hnil
        rw [hnil] at hd
        simp at hd
      · intro x hx
        have : x ∈ l.dedup := List.mem_dedup.mpr hx
        rw [hd] at this
        simpa using this
  · rintro ⟨a, hne, hall⟩
    have hsub : l.dedup ⊆ [a] := by
      intro x hx
      have := hall x (List.mem_dedup.mp hx)
      simp [this]
    have hmem : a ∈ l.dedup := by
      match l, hne with
      | x :: xs, _ =>
        have : x ∈ x :: xs := List.mem_cons_self x xs
        have hxa := hall x this
        exact List.mem_dedup.mpr (hxa ▸ this)
    have hnd := l.nodup_dedup
    match hd : l.dedup, hmem, hnd, hsub with
    | [x], _, _, _ => rfl
    | x :: y :: t, _, hnd, hsub =>
      have hx : x ∈ [a] := hsub (List.mem_cons_self _ _)
      have hy : y ∈ [a] := hsub (List.mem_cons_of_mem _ (List.mem_cons_self _ _))
      simp only [List.mem_singleton] at hx hy
      subst hx
      subst hy
      simp at hnd

/-- Two distinct members of a list force its `dedup` length away from one. -/
theorem dedup_length_ne_one {α : Type} [DecidableEq α] {l : List α} {a b : α}
    (ha : a ∈ l) (hb : b ∈ l) (hab : a ≠ b) : l.dedup.length ≠ 1 := by
  intro h
  rcases (dedup_length_one_iff l).mp h with ⟨c, _, hall⟩
  exact hab ((hall a ha).trans (hall b hb).symm)

/-- C1: on a nonempty ensemble, `sanity_check` raises when two members
report different `n_trg_vocab`, and the vocabulary assertion passes when
all members report the same size. -/
theorem sanity_check_vocab (instances : List Instance)
    (hne : instances ≠ []) :
    ((∃ i ∈ instances, ∃ j ∈ instances, i.n_trg_vocab ≠ j.n_trg_vocab) →
      ∃ e, sanity_check instances = Except.error e) ∧
    ((∀ i ∈ instances, ∀ j ∈ instances, i.n_trg_vocab = j.n_trg_vocab) →
      vocab_check_ok instances = true) := by
  constructor
  · rintro ⟨i, hi, j, hj, hij⟩
    unfold sanity_check
    by_cases hf : filters_check_ok instances
    · have hv : vocab_check_ok instances = false := by
        unfold vocab_check_ok
        have := dedup_length_ne_one (l := instances.map (·.n_trg_vocab))
          (List.mem_map_of_mem _ hi) (List.mem_map_of_mem _ hj) hij
        simpa using this
      rw [if_pos hf, hv]
      exact ⟨_, rfl⟩
    · rw [if_neg hf]
      exact ⟨_, rfl⟩
  · intro hall
    unfold vocab_check_ok
    match instances, hne with
    | i₀ :: rest, _ =>
      have : ((i₀ :: rest).map (·.n_trg_vocab)).dedup.length = 1 := by
        refine (dedup_length_one_iff _).mpr ⟨i₀.n_trg_vocab, by simp, ?_⟩
        intro x hx
        rcases List.mem_map.mp hx with ⟨i, hi, rfl⟩
        exact hall i hi i₀ (List.mem_cons_self _ _)
      simpa using this

/-- Closed instantiation of `sanity_check_vocab`. -/
theorem sanity_check_vocab_witness :
    ([⟨["de-bpe"], 7, true⟩, ⟨["de-bpe"], 9, true⟩] : List Instance) ≠ [] ∧
    (∃ e, sanity_check [⟨["de-bpe"], 7, true⟩, ⟨["de-bpe"], 9, true⟩] =
      Except.error e) :=
  ⟨by decide,
   (sanity_check_vocab [⟨["de-bpe"], 7, true⟩, ⟨["de-bpe"], 9, true⟩]
      (by decide)).1
     ⟨⟨["de-bpe"], 7, true⟩, by decide, ⟨["de-bpe"], 9, true⟩, by decide,
      by decide⟩⟩

/-- C8: `sanity_check` on the empty instance list raises (the filters
assertion `len(set()) < 2` passes vacuously, but the vocabulary assertion
`len(set()) == 1` fails), so an empty ensemble never reaches decoding. -/
theorem sanity_check_empty :
    sanity_check [] = Except.error "target vocabularies differ." := rfl

/-- C2 counterexample: two members whose filter configurations are equal
as unordered sets but listed in different orders are rejected by
`sanity_check`, contradicting the claim that set-equal configurations
are always accepted. -/
theorem sanity_check_filters_counterexample :
    (["de-bpe", "de-hyphen"] : List String).toFinset =
      (["de-hyphen", "de-bpe"] : List String).toFinset ∧
    sanity_check
      [⟨["de-bpe", "de-hyphen"], 7, true⟩, ⟨["de-hyphen", "de-bpe"], 7, true⟩] =
      Except.error "eval_filters differ between instances." := by
  constructor
  · decide
  · rfl

/-- C2 amended: the filters assertion accepts exactly when all members
declare literally identical (order-sensitive) filter configurations. -/
theorem filters_check_iff (instances : List Instance) :
    filters_check_ok instances = true ↔
      ∀ i ∈ instances, ∀ j ∈ instances, i.eval_filters = j.eval_filters := by
  constructor
  · intro h i hi j hj
    unfold filters_check_ok at h
    by_contra hne
    have hlen := dedup_length_ne_one (l := instances.map (·.eval_filters))
      (List.mem_map_of_mem _ hi) (List.mem_map_of_mem _ hj) hne
    have h2 : ((instances.map (·.eval_filters)).dedup).length < 2 := by
      simpa using h
    have hpos : 0 < ((instances.map (·.eval_filters)).dedup).length := by
      have : i.eval_filters ∈ (instances.map (·.eval_filters)).dedup :=
        List.mem_dedup.mpr (List.mem_map_of_mem _ hi)
      exact List.length_pos.mpr (List.ne_nil_of_mem this)
    omega
  · intro hall
    cases instances with
    | nil => decide
    | cons i₀ rest =>
      have h1 : ((i₀ :: rest).map (·.eval_filters)).dedup.length = 1 := by
        refine (dedup_length_one_iff _).mpr ⟨i₀.eval_filters, by simp, ?_⟩
        intro x hx
        rcases List.mem_map.mp hx with ⟨i, hi, rfl⟩
        exact hall i hi i₀ (List.mem_cons_self _ _)
      simp only [filters_check_ok, h1]
      decide

/-- Observable effects of the `Translator.__init__` loading loop and of
the subsequent decoding phase. -/
inductive LoadEvent where
  | weights_loaded (idx : Nat)
  | decode_started
  deriving DecidableEq, Repr

/-- How a `Translator` run ends: normally, via `sys.exit(code)`, or via a
failed assertion. -/
inductive RunOutcome where
  | ok
  | exit (code : Nat)
  | assertionError (msg : String)
  deriving DecidableEq, Repr

/-- The per-model loop of `Translator.__init__`: for each model (indexed
from 0), first test `supports_beam_search` and call `sys.exit(1)` on
failure; only afterwards load its weights (`load_state_dict`, recorded
as a `weights_loaded` event) and append the instance. -/
def load_loop : List Instance → Nat → List LoadEvent × Except Nat (List Instance)
  | [], _ => ([], Except.ok [])
  | m :: rest, i =>
    if m.supports_beam_search then
      let r := load_loop rest (i + 1)
      (LoadEvent.weights_loaded i :: r.1, r.2.map (m :: ·))
    else ([], Except.error 1)

/-- `Translator.__init__` followed by `Translator.__call__`: load all
models, run `sanity_check`, and only then start decoding. -/
def translator_run (ms : List Instance) : List LoadEvent × RunOutcome :=
  match load_loop ms 0 with
  | (evs, Except.error code) => (evs, RunOutcome.exit code)
  | (evs, Except.ok insts) =>
    match sanity_check insts with
    | Except.error e => (evs, RunOutcome.assertionError e)
    | Except.ok _ => (evs ++ [LoadEvent.decode_started], RunOutcome.ok)

theorem load_loop_no_decode (ms : List Instance) (i : Nat) :
    LoadEvent.decode_started ∉ (load_loop ms i).1 := by
  induction ms generalizing i with
  | nil => simp [load_loop]
  | cons m rest ih =>
    by_cases hs : m.supports_beam_search
    · simp [load_loop, hs]
      exact ih (i + 1)
    · simp [load_loop, hs]

theorem load_loop_fail (ms : List Instance) (i k : Nat) (m : Instance)
    (hget : ms.get? k = some m) (hm : m.supports_beam_search = false) :
    (load_loop ms i).2 = Except.error 1 ∧
    LoadEvent.weights_loaded (i + k) ∉ (load_loop ms i).1 := by
  induction ms generalizing i k with
  | nil => simp at hget
  | cons m₀ rest ih =>
    by_cases hs : m₀.supports_beam_search
    · cases k with
      | zero =>
        simp at hget
        rw [← hget] at hm
        exact absurd hs (by simp [hm])
      | succ k =>
        have hget' : rest.get? k = some m := by simpa using hget
        have ihr := ih (i + 1) k hget'
        constructor
        · simp only [load_loop, hs, if_true]
          rw [ihr.1]
          rfl
        · simp only [load_loop, hs, if_true, List.mem_cons]
          push_neg
          refine ⟨fun hcontra => by injection hcontra with h'; omega, ?_⟩
          have : i + 1 + k = i + (k + 1) := by omega
          rw [this] at ihr
          exact ihr.2
    · simp [load_loop, hs]

/-- C3: if any model in the list does not declare beam-search support,
the run ends in `sys.exit` with a non-zero code, that model's weights are
never loaded, and decoding never starts. -/
theorem translator_exits_on_unsupported (ms : List Instance) (k : Nat)
    (m : Instance) (hget : ms.get? k = some m)
    (hm : m.supports_beam_search = false) :
    (∃ c, (translator_run ms).2 = RunOutcome.exit c ∧ c ≠ 0) ∧
    LoadEvent.weights_loaded k ∉ (translator_run ms).1 ∧
    LoadEvent.decode_started ∉ (translator_run ms).1 := by
  have h := load_loop_fail ms 0 k m hget hm
  have hnd := load_loop_no_decode ms 0
  rcases hp : load_loop ms 0 with ⟨evs, r⟩
  rw [hp] at h hnd
  simp only at h hnd
  have hr : r = Except.error 1 := h.1
  subst hr
  have hrun : translator_run ms = (evs, RunOutcome.exit 1) := by
    unfold translator_run
    rw [hp]
  rw [hrun]
  refine ⟨⟨1, rfl, by decide⟩, ?_, hnd⟩
  simpa using h.2

/-- Closed instantiation of `translator_exits_on_unsupported`. -/
theorem translator_exits_on_unsupported_witness :
    ([(⟨["de-bpe"], 7, true⟩ : Instance), ⟨["de-bpe"], 7, false⟩].get? 1 =
      some ⟨["de-bpe"], 7, false⟩) ∧
    (Instance.supports_beam_search ⟨["de-bpe"], 7, false⟩ = false) ∧
    ((∃ c, (translator_run [⟨["de-bpe"], 7, true⟩, ⟨["de-bpe"], 7, false⟩]).2 =
        RunOutcome.exit c ∧ c ≠ 0) ∧
      LoadEvent.weights_loaded 1 ∉
        (translator_run [⟨["de-bpe"], 7, true⟩, ⟨["de-bpe"], 7, false⟩]).1 ∧
      LoadEvent.decode_started ∉
        (translator_run [⟨["de-bpe"], 7, true⟩, ⟨["de-bpe"], 7, false⟩]).1) :=
  ⟨rfl, rfl,
   translator_exits_on_unsupported
     [⟨["de-bpe"], 7, true⟩, ⟨["de-bpe"], 7, false⟩] 1
     ⟨["de-bpe"], 7, false⟩ rfl rfl⟩

/-- The post-processing filter selected by `Translator.__init__`
(lines 62–67): when `disable_filters` is set or the first instance's
`eval_filters` is falsy (empty), the filter is `lambda s: s`; otherwise
it is `FilterChain(eval_filters)`.  The behaviour of a non-empty
`FilterChain` lives outside `src/`, so it is passed in as `chain`. -/
def translator_filter (disable_filters : Bool) (eval_filters : List String)
    (chain : List String → List String → List String) :
    List String → List String :=
  if disable_filters || eval_filters.isEmpty then fun s => s
  else chain eval_filters

/-- C5: with post-processing disabled by the caller or an empty declared
filter configuration, the selected filter is the identity on hypothesis
lists, and the two disabling conditions select the very same function. -/
theorem translator_filter_identity (d : Bool) (fs : List String)
    (chain : List String → List String → List String)
    (h : d = true ∨ fs = []) :
    (∀ hyps, translator_filter d fs chain hyps = hyps) ∧
    (∀ (d' : Bool) (fs' : List String)
        (chain' : List String → List String → List String),
        d' = true ∨ fs' = [] →
        translator_filter d fs chain = translator_filter d' fs' chain') := by
  have hc : ∀ (b : Bool) (l : List String), b = true ∨ l = [] →
      (b || l.isEmpty) = true := by
    rintro b l (rfl | rfl) <;> simp
  constructor
  · intro hyps
    unfold translator_filter
    rw [if_pos (hc d fs h)]
  · intro d' fs' chain' h'
    unfold translator_filter
    rw [if_pos (hc d fs h), if_pos (hc d' fs' h')]

/-- Closed instantiation of `translator_filter_identity`. -/
theorem translator_filter_identity_witness :
    ((true : Bool) = true ∨ (["de-bpe"] : List String) = []) ∧
    (∀ hyps, translator_filter true ["de-bpe"] (fun _ l => l) hyps = hyps) :=
  ⟨Or.inl rfl,
   (translator_filter_identity true ["de-bpe"] (fun _ l => l) (Or.inl rfl)).1⟩

/-- The file-name construction of `Translator.dump`.  The length-penalty
coefficient `lp_alpha` is a Python float always used with one decimal
digit; it is embedded exactly as that digit count, `lp_alpha_tenths`
being `10 * lp_alpha`, so Python's `"{:.1f}".format(lp_alpha)` is
`toString (t / 10) ++ "." ++ toString (t % 10)` and `lp_alpha > 0.` is
`0 < t`.  The suffix is built in source order: `.lp_`, then `.ens`, then
`.beam`; the split name is inserted unless the split is `'new'`. -/
def dump_filename (output split : String)
    (lp_alpha_tenths n_models beam_size : Nat) : String :=
  let s1 := if 0 < lp_alpha_tenths then
      ".lp_" ++ toString (lp_alpha_tenths / 10) ++ "." ++
        toString (lp_alpha_tenths % 10)
    else ""
  let s2 := if 1 < n_models then s1 ++ ".ens" ++ toString n_models else s1
  let s3 := s2 ++ ".beam" ++ toString beam_size
  if split = "new" then output ++ s3 else output ++ "." ++ split ++ s3

/-- C4: `Translator.dump` names its output by optionally inserting the
split, then appending `.lp_<α>` only when α > 0, `.ens<N>` only when
N > 1, and `.beam<K>` always; the spec's two concrete examples hold. -/
theorem dump_filename_spec (output split : String) (lp n k : Nat)
    (_hn : 1 ≤ n) :
    dump_filename output split lp n k =
      (if split = "new" then output else output ++ "." ++ split) ++
        ((if 0 < lp then
            ".lp_" ++ toString (lp / 10) ++ "." ++ toString (lp % 10)
          else "") ++
         ((if 1 < n then ".ens" ++ toString n else "") ++
          (".beam" ++ toString k))) ∧
    dump_filename "out" "test" 10 2 5 = "out.test.lp_1.0.ens2.beam5" ∧
    dump_filename "out" "new" 0 1 4 = "out.beam4" := by
  refine ⟨?_, rfl, rfl⟩
  unfold dump_filename
  split_ifs <;>
    simp [String.append_assoc, String.empty_append, String.append_empty]

/-- Closed instantiation of `dump_filename_spec`. -/
theorem dump_filename_spec_witness :
    1 ≤ 1 ∧ dump_filename "out" "new" 0 1 4 = "out.beam4" :=
  ⟨Nat.le_refl 1, (dump_filename_spec "o" "s" 0 1 2 (Nat.le_refl 1)).2.2⟩

/-- The body of `Translator.dump`'s write loop:
`for line in hyps: f.write(line + '\n')` applied to a file freshly
truncated by `open(output, 'w')`. -/
def dump_lines (hyps : List String) : String :=
  hyps.foldl (fun acc line => acc ++ line ++ "\n") ""

/-- `Translator.dump` as an update of a file system modelled as a map
from paths to contents: the file at the constructed name is replaced by
the written lines, independently of what was there before. -/
def dump_write (fs : String → Option String) (output split : String)
    (lp_alpha_tenths n_models beam_size : Nat) (hyps : List String) :
    String → Option String :=
  fun p =>
    if p = dump_filename output split lp_alpha_tenths n_models beam_size then
      some (dump_lines hyps)
    else fs p

theorem join_foldl (l : List String) (a : String) :
    l.foldl (· ++ ·) a = a ++ String.join l := by
  induction l generalizing a with
  | nil => simp [String.join, String.append_empty]
  | cons s t ih =>
    simp only [List.foldl_cons, String.join] at *
    rw [ih (a ++ s), ih ("" ++ s), String.empty_append, String.append_assoc]

theorem join_cons (s : String) (l : List String) :
    String.join (s :: l) = s ++ String.join l := by
  show (s :: l).foldl (· ++ ·) "" = s ++ String.join l
  rw [List.foldl_cons, join_foldl, String.empty_append]

theorem dump_lines_foldl (hyps : List String) (a : String) :
    hyps.foldl (fun acc line => acc ++ line ++ "\n") a =
      a ++ String.join (hyps.map (· ++ "\n")) := by
  induction hyps generalizing a with
  | nil => simp [String.join, String.append_empty]
  | cons hline t ih =>
    simp only [List.foldl_cons, List.map_cons]
    rw [ih, join_cons, String.append_assoc a hline "\n", String.append_assoc]

/-- C6: at the constructed path, `Translator.dump` produces exactly the
hypotheses in input order, each followed by a newline; the result does
not depend on the file system's previous state (mode `'w'` overwrites);
the empty hypothesis list produces an empty file. -/
theorem dump_write_spec (fs : String → Option String)
    (output split : String) (lp n k : Nat) (hyps : List String) :
    dump_write fs output split lp n k hyps (dump_filename output split lp n k) =
      some (String.join (hyps.map (· ++ "\n"))) ∧
    (∀ fs' : String → Option String,
      dump_write fs output split lp n k hyps
          (dump_filename output split lp n k) =
        dump_write fs' output split lp n k hyps
          (dump_filename output split lp n k)) ∧
    dump_write fs output split lp n k []
        (dump_filename output split lp n k) = some "" := by
  refine ⟨?_, ?_, ?_⟩
  · unfold dump_write
    rw [if_pos rfl]
    unfold dump_lines
    rw [dump_lines_foldl, String.empty_append]
  · intro fs'
    unfold dump_write
    rw [if_pos rfl, if_pos rfl]
  · unfold dump_write
    rw [if_pos rfl]
    rfl

/-- Python `s.split(sep, 1)` on character lists, returning the part
before the first separator and, when a separator occurs, the part after
it.  `none` in the second component means the separator does not occur
(so `key, path = entry.split(':', 1)` would raise `ValueError`). -/
def split_first (c : Char) : List Char → List Char × Option (List Char)
  | [] => ([], none)
  | x :: xs =>
    if x = c then ([], some xs)
    else
      let r := split_first c xs
      (x :: r.1, r.2)

/-- Python `s.split(sep)` on character lists (`"".split(sep) == ['']`). -/
def py_split (c : Char) : List Char → List (List Char)
  | [] => [[]]
  | x :: xs =>
    if x = c then [] :: py_split c xs
    else
      match py_split c xs with
      | [] => [[x]]
      | h :: t => (x :: h) :: t

/-- Rejoining split pieces with the separator. -/
def join_with (c : Char) : List (List Char) → List Char
  | [] => []
  | [e] => e
  | e :: es => e ++ c :: join_with c es

/-- One iteration of the `for data_source in self.source.split(',')`
loop: `key, path = data_source.split(':', 1)`. -/
def parse_entry (entry : List Char) : Option (List Char × List Char) :=
  match split_first ':' entry with
  | (_, none) => none
  | (k, some p) => some (k, p)

/-- The whole loop, building the `input_dict` bindings in entry order;
the first entry without a `':'` aborts with `ValueError`. -/
def parse_entries : List (List Char) → Option (List (List Char × List Char))
  | [] => some []
  | e :: es =>
    match parse_entry e, parse_entries es with
    | some kp, some rest => some (kp :: rest)
    | _, _ => none

/-- `Translator.__init__`'s parsing of the `-S` source mapping string. -/
def parse_source (source : List Char) :
    Option (List (List Char × List Char)) :=
  parse_entries (py_split ',' source)

/-- Python truthiness of an optional string argument. -/
def py_truthy : Option (List Char) → Bool
  | none => false
  | some s => !s.isEmpty

/-- Outcome of the split/source configuration block at the end of
`Translator.__init__` (lines 70–82). -/
inductive TrInit where
  | ok (splits : List (List Char)) (new_set : List (List Char × List Char))
  | valueError
  | unset
  deriving DecidableEq, Repr

/-- The split/source configuration block of `Translator.__init__`: a
truthy `splits` string is split on commas; otherwise a truthy `source`
string is parsed into `new_set` bindings and `splits` becomes
`['new']`; otherwise `splits` is left as it was. -/
def translator_splits (sp src : Option (List Char)) : TrInit :=
  if py_truthy sp then TrInit.ok (py_split ',' (sp.getD [])) []
  else if py_truthy src then
    match parse_source (src.getD []) with
    | some b => TrInit.ok [String.toList "new"] b
    | none => TrInit.valueError
  else TrInit.unset

theorem split_first_none (c : Char) (s : List Char) :
    ∀ k, split_first c s = (k, none) → s = k ∧ c ∉ k := by
  induction s with
  | nil =>
    intro k h
    simp only [split_first, Prod.mk.injEq] at h
    rw [← h.1]
    simp
  | cons x xs ih =>
    intro k h
    by_cases hx : x = c
    · simp [split_first, hx] at h
    · rcases hr : split_first c xs with ⟨k', o⟩
      simp only [split_first, if_neg hx, hr, Prod.mk.injEq] at h
      obtain ⟨hk, ho⟩ := h
      subst ho
      subst hk
      rcases ih k' hr with ⟨hxs, hc⟩
      refine ⟨by rw [hxs], ?_⟩
      simp only [List.mem_cons]
      rintro (rfl | hmem)
      · exact hx rfl
      · exact hc hmem

theorem split_first_some (c : Char) (s : List Char) :
    ∀ k p, split_first c s = (k, some p) →
      s = k ++ c :: p ∧ c ∉ k := by
  induction s with
  | nil => intro k p h; simp [split_first] at h
  | cons x xs ih =>
    intro k p h
    by_cases hx : x = c
    · simp only [split_first, if_pos hx, Prod.mk.injEq, Option.some.injEq] at h
      obtain ⟨hk, hp⟩ := h
      subst hk
      subst hp
      simp [hx]
    · rcases hr : split_first c xs with ⟨k', o⟩
      simp only [split_first, if_neg hx, hr, Prod.mk.injEq] at h
      obtain ⟨hk, ho⟩ := h
      subst hk
      subst ho
      rcases ih k' p hr with ⟨hxs, hc⟩
      refine ⟨by rw [List.cons_append, hxs], ?_⟩
      simp only [List.mem_cons]
      rintro (rfl | hmem)
      · exact hx rfl
      · exact hc hmem

theorem py_split_ne_nil (c : Char) (s : List Char) : py_split c s ≠ [] := by
  cases s with
  | nil => simp [py_split]
  | cons x xs =>
    by_cases hx : x = c
    · simp [py_split, hx]
    · simp only [py_split, if_neg hx]
      cases py_split c xs <;> simp

theorem py_split_no_sep (c : Char) (s : List Char) :
    ∀ e ∈ py_split c s, c ∉ e := by
  induction s with
  | nil => intro e he; simp [py_split] at he; simp [he]
  | cons x xs ih =>
    intro e he
    by_cases hx : x = c
    · simp only [py_split, if_pos hx, List.mem_cons] at he
      rcases he with rfl | he
      · simp
      · exact ih e he
    · simp only [py_split, if_neg hx] at he
      cases hsp : py_split c xs with
      | nil => exact absurd hsp (py_split_ne_nil c xs)
      | cons h t =>
        rw [hsp, List.mem_cons] at he
        rcases he with rfl | he
        · have hh : c ∉ h := ih h (hsp ▸ List.mem_cons_self h t)
          simp only [List.mem_cons]
          rintro (rfl | hmem)
          · exact hx rfl
          · exact hh hmem
        · exact ih e (hsp ▸ List.mem_cons_of_mem h he)

theorem join_with_py_split (c : Char) (s : List Char) :
    join_with c (py_split c s) = s := by
  induction s with
  | nil => rfl
  | cons x xs ih =>
    by_cases hx : x = c
    · simp only [py_split, if_pos hx]
      cases hsp : py_split c xs with
      | nil => exact absurd hsp (py_split_ne_nil c xs)
      | cons h t =>
        have : join_with c ([] :: h :: t) = c :: join_with c (h :: t) := rfl
        rw [this, ← hsp, ih, hx]
    · simp only [py_split, if_neg hx]
      cases hsp : py_split c xs with
      | nil => exact absurd hsp (py_split_ne_nil c xs)
      | cons h t =>
        cases t with
        | nil =>
          have : join_with c [x :: h] = x :: h := rfl
          rw [this]
          have := ih
          rw [hsp] at this
          have hh : join_with c [h] = h := rfl
          rw [hh] at this
          rw [this]
        | cons t₀ ts =>
          have h1 : join_with c ((x :: h) :: t₀ :: ts) =
              (x :: h) ++ c :: join_with c (t₀ :: ts) := rfl
          have h2 : join_with c (h :: t₀ :: ts) =
              h ++ c :: join_with c (t₀ :: ts) := rfl
          have := ih
          rw [hsp, h2] at this
          rw [h1, List.cons_append, this]

theorem parse_entries_spec (entries : List (List Char)) :
    ∀ b, parse_entries entries = some b →
      b.length = entries.length ∧
      ∀ eb ∈ entries.zip b, parse_entry eb.1 = some eb.2 := by
  induction entries with
  | nil =>
    intro b h
    simp [parse_entries] at h
    simp [← h]
  | cons e es ih =>
    intro b h
    unfold parse_entries at h
    cases hpe : parse_entry e with
    | none => rw [hpe] at h; simp at h
    | some kp =>
      rw [hpe] at h
      cases hps : parse_entries es with
      | none => rw [hps] at h; simp at h
      | some rest =>
        rw [hps] at h
        simp only [Option.some.injEq] at h
        subst h
        rcases ih rest hps with ⟨hlen, hall⟩
        refine ⟨by simp [hlen], ?_⟩
        intro eb heb
        rw [List.zip_cons_cons, List.mem_cons] at heb
        rcases heb with rfl | heb
        · exact hpe
        · exact hall eb heb

/-- C7: with no named splits but a truthy source mapping, the
constructor yields splits `['new']` and bindings obtained by splitting
the mapping on commas (rejoining the entries with commas recovers the
mapping and no entry contains a comma) and, per entry, at the first
`':'` into a colon-free key and the remaining path. -/
theorem translator_splits_new (sp : Option (List Char)) (src : List Char)
    (b : List (List Char × List Char))
    (h1 : py_truthy sp = false)
    (h2 : src ≠ [])
    (h3 : parse_source src = some b) :
    translator_splits sp (some src) = TrInit.ok [String.toList "new"] b ∧
    join_with ',' (py_split ',' src) = src ∧
    (∀ e ∈ py_split ',' src, ',' ∉ e) ∧
    b.length = (py_split ',' src).length ∧
    (∀ eb ∈ (py_split ',' src).zip b,
      eb.1 = eb.2.1 ++ ':' :: eb.2.2 ∧ ':' ∉ eb.2.1) := by
  have htr : py_truthy (some src) = true := by
    cases src with
    | nil => exact absurd rfl h2
    | cons x xs => rfl
  rcases parse_entries_spec (py_split ',' src) b h3 with ⟨hlen, hall⟩
  refine ⟨?_, join_with_py_split ',' src, py_split_no_sep ',' src,
    hlen.symm ▸ hlen, ?_⟩
  · unfold translator_splits
    rw [h1, htr]
    simp only [Bool.false_eq_true, if_false, if_true, Option.getD_some]
    rw [h3]
  · intro eb heb
    have hpe := hall eb heb
    unfold parse_entry at hpe
    cases hsf : split_first ':' eb.1 with
    | mk k po =>
      cases po with
      | none => rw [hsf] at hpe; simp at hpe
      | some p =>
        rw [hsf] at hpe
        simp only [Option.some.injEq] at hpe
        rcases split_first_some ':' eb.1 k p hsf with ⟨heq, hnc⟩
        rw [← hpe]
        exact ⟨heq, hnc⟩

/-- Closed instantiation of `translator_splits_new`. -/
theorem translator_splits_new_witness :
    py_truthy none = false ∧
    String.toList "a:b,c:d" ≠ [] ∧
    parse_source (String.toList "a:b,c:d") =
      some [(['a'], ['b']), (['c'], ['d'])] ∧
    translator_splits none (some (String.toList "a:b,c:d")) =
      TrInit.ok [String.toList "new"] [(['a'], ['b']), (['c'], ['d'])] :=
  ⟨rfl, by decide, rfl,
   (translator_splits_new none (String.toList "a:b,c:d")
      [(['a'], ['b']), (['c'], ['d'])] rfl (by decide) rfl).1⟩

/-- Modelled from the spec: `MultiParallelDataset` (referenced by
`multilabelmulti30k.py` but not under `src/`) exposes `sources`, the
source-side data keys, and `data_sources`, all data keys (source and
target sides); per §6 target data is a separate, droppable side. -/
structure MPDataset where
  src_keys : List String
  trg_keys : List String
  deriving DecidableEq, Repr

/-- Modelled from the spec: the dataset's source-side keys. -/
def MPDataset.sources (d : MPDataset) : List String := d.src_keys

/-- Modelled from the spec: all the dataset's data keys. -/
def MPDataset.data_sources (d : MPDataset) : List String :=
  d.src_keys ++ d.trg_keys

/-- The observable configuration of the `DataLoader` returned by
`MultiLabelMulti30kDataset.get_iterator`. -/
structure LoaderCfg where
  shuffle : Bool
  batch_size : Nat
  collate_keys : List String
  deriving DecidableEq, Repr

/-- `MultiLabelMulti30kDataset.get_iterator`:
`keys = self.dataset.sources if drop_targets else self.dataset.data_sources`
and `DataLoader(self.dataset, shuffle=not inference, batch_size=batch_size,
collate_fn=get_collate(keys))`. -/
def get_iterator (d : MPDataset) (batch_size : Nat)
    (drop_targets inference : Bool) : LoaderCfg :=
  { shuffle := !inference
    batch_size := batch_size
    collate_keys := if drop_targets then d.sources else d.data_sources }

/-- C9: `inference=True` yields an unshuffled loader; `drop_targets=True`
collates over exactly the source-side keys (no target keys), whereas
without it the target keys are included. -/
theorem get_iterator_spec (d : MPDataset) (bs : Nat) (dt inf : Bool) :
    (get_iterator d bs dt true).shuffle = false ∧
    (get_iterator d bs true inf).collate_keys = d.src_keys ∧
    (get_iterator d bs false inf).collate_keys = d.src_keys ++ d.trg_keys := by
  refine ⟨rfl, ?_, ?_⟩ <;> simp [get_iterator, MPDataset.sources,
    MPDataset.data_sources]

/-- A data source declared in a topology (`DataSource`, outside `src/`);
only its `_type` tag is observed by `multilabelmulti30k.py`. -/
structure DataSrc where
  ds_type : String
  deriving DecidableEq, Repr

/-- The caller-supplied `Topology` object: ordered key-to-DataSource
maps `srcs` and `trgs` (Python dicts, embedded as association lists
with unique keys). -/
structure Topology where
  srcs : List (String × DataSrc)
  trgs : List (String × DataSrc)
  deriving DecidableEq, Repr

/-- `del d[key]` on a Python dict: remove the entry with that key. -/
def del_key (k : String) (l : List (String × DataSrc)) :
    List (String × DataSrc) :=
  l.eraseP (fun p => p.1 == k)

/-- One of the two pruning loops of
`MultiLabelMulti30kDataset.__init__`:
`for key, ds in d.copy().items(): if key not in data_dict: del d[key]`,
iterating over a snapshot (`iter`) while mutating the live dict
(`cur`). -/
def prune_loop (dataKeys : List String) :
    List (String × DataSrc) → List (String × DataSrc) →
      List (String × DataSrc)
  | [], cur => cur
  | (k, _) :: rest, cur =>
    if dataKeys.contains k then prune_loop dataKeys rest cur
    else prune_loop dataKeys rest (del_key k cur)

/-- The net effect of `MultiLabelMulti30kDataset.__init__` on the
caller's topology: both loops run, each over a copy of its dict. -/
def mlm30k_init_topology (dataKeys : List String) (topo : Topology) :
    Topology :=
  { srcs := prune_loop dataKeys topo.srcs topo.srcs
    trgs := prune_loop dataKeys topo.trgs topo.trgs }

theorem prune_loop_skip (dataKeys : List String)
    (iter : List (String × DataSrc)) (x : String × DataSrc) :
    ∀ cur, (∀ p ∈ iter, p.1 ≠ x.1) →
      prune_loop dataKeys iter (x :: cur) =
        x :: prune_loop dataKeys iter cur := by
  induction iter with
  | nil => intro cur _; rfl
  | cons y rest ih =>
    intro cur hx
    rcases y with ⟨k, d⟩
    have hk : k ≠ x.1 := hx (k, d) (List.mem_cons_self _ _)
    have hrest : ∀ p ∈ rest, p.1 ≠ x.1 :=
      fun p hp => hx p (List.mem_cons_of_mem _ hp)
    by_cases hc : dataKeys.contains k
    · simp only [prune_loop, if_pos hc]
      exact ih cur hrest
    · simp only [prune_loop, if_neg hc]
      have hdel : del_key k (x :: cur) = x :: del_key k cur := by
        unfold del_key
        rw [List.eraseP_cons_of_neg]
        exact fun h => hk (beq_iff_eq.mp h).symm
      rw [hdel]
      exact ih (del_key k cur) hrest

theorem map_fst_filter (dataKeys : List String)
    (l : List (String × DataSrc)) :
    (l.filter (fun p => dataKeys.contains p.1)).map Prod.fst =
      (l.map Prod.fst).filter (fun k => dataKeys.contains k) := by
  induction l with
  | nil => rfl
  | cons x rest ih =>
    rw [List.filter_cons, List.map_cons, List.filter_cons]
    by_cases hc : dataKeys.contains x.1
    · rw [if_pos hc, if_pos hc, List.map_cons, ih]
    · rw [if_neg hc, if_neg hc, ih]

theorem prune_loop_filter (dataKeys : List String)
    (l : List (String × DataSrc)) (hnd : (l.map Prod.fst).Nodup) :
    prune_loop dataKeys l l =
      l.filter (fun p => dataKeys.contains p.1) := by
  induction l with
  | nil => rfl
  | cons x rest ih =>
    rcases x with ⟨k, d⟩
    rw [List.map_cons, List.nodup_cons] at hnd
    have hknot : ∀ p ∈ rest, p.1 ≠ (k, d).1 := by
      intro p hp hcontra
      exact hnd.1 (hcontra ▸ List.mem_map_of_mem Prod.fst hp)
    by_cases hc : dataKeys.contains k
    · simp only [prune_loop, if_pos hc]
      rw [prune_loop_skip dataKeys rest (k, d) rest hknot, ih hnd.2,
        List.filter_cons, if_pos hc]
    · simp only [prune_loop, if_neg hc]
      have hdel : del_key k ((k, d) :: rest) = rest := by
        unfold del_key
        rw [List.eraseP_cons_of_pos]
        exact beq_iff_eq.mpr rfl
      rw [hdel, ih hnd.2, List.filter_cons, if_neg hc]

/-- C10: after `MultiLabelMulti30kDataset.__init__`, the topology's
`srcs` and `trgs` are exactly their original entries whose keys appear
in `data_dict`, unchanged and in order — i.e. the surviving keys are
exactly the original keys that have data. -/
theorem mlm30k_topology_pruned (dataKeys : List String) (topo : Topology)
    (hs : (topo.srcs.map Prod.fst).Nodup)
    (ht : (topo.trgs.map Prod.fst).Nodup) :
    (mlm30k_init_topology dataKeys topo).srcs =
      topo.srcs.filter (fun p => dataKeys.contains p.1) ∧
    (mlm30k_init_topology dataKeys topo).trgs =
      topo.trgs.filter (fun p => dataKeys.contains p.1) ∧
    ((mlm30k_init_topology dataKeys topo).srcs.map Prod.fst) =
      (topo.srcs.map Prod.fst).filter (fun k => dataKeys.contains k) ∧
    ((mlm30k_init_topology dataKeys topo).trgs.map Prod.fst) =
      (topo.trgs.map Prod.fst).filter (fun k => dataKeys.contains k) := by
  have h1 := prune_loop_filter dataKeys topo.srcs hs
  have h2 := prune_loop_filter dataKeys topo.trgs ht
  refine ⟨h1, h2, ?_, ?_⟩
  · show (prune_loop dataKeys topo.srcs topo.srcs).map Prod.fst = _
    rw [h1, map_fst_filter]
  · show (prune_loop dataKeys topo.trgs topo.trgs).map Prod.fst = _
    rw [h2, map_fst_filter]

/-- Closed instantiation of `mlm30k_topology_pruned`. -/
theorem mlm30k_topology_pruned_witness :
    (([("img", ⟨"ImageFolder"⟩), ("txt", ⟨"Text"⟩)] :
        List (String × DataSrc)).map Prod.fst).Nodup ∧
    (([("lab", ⟨"OneHot"⟩)] : List (String × DataSrc)).map Prod.fst).Nodup ∧
    (mlm30k_init_topology ["img", "lab"]
        ⟨[("img", ⟨"ImageFolder"⟩), ("txt", ⟨"Text"⟩)],
         [("lab", ⟨"OneHot"⟩)]⟩).srcs =
      [("img", ⟨"ImageFolder"⟩)] :=
  ⟨by decide, by decide,
   by
    have h := mlm30k_topology_pruned ["img", "lab"]
      ⟨[("img", ⟨"ImageFolder"⟩), ("txt", ⟨"Text"⟩)], [("lab", ⟨"OneHot"⟩)]⟩
      (by decide) (by decide)
    rw [h.1]
    decide⟩

end Nmtpytorch
